import Mathlib

/-!
Shallow embedding of the voice-activity segmentation engine of
`naomi/plugin.py` (`VADPlugin.__init__` and `VADPlugin.get_audio`).

Modelling choices, each justified by the source:
* Frames are opaque values of a type `α`; in theorems about stream
  positions we instantiate `α := ℕ` and feed the stream `List.range n`,
  so a frame is identified with its index.
* The classifier `_voice_detected(frame, recording=...)` is an injected
  function `cls : α → Bool → Bool`.
* Python's `collections.deque([], 30)` with `append` is a bounded FIFO
  of capacity 30 dropping the oldest element (`pushBounded 30`).
* The Python slice `list(frames)[-t:]` for a nonnegative integer `t` is
  `pyLastSlice t`: the whole list when `t = 0`, else the last `t`
  elements.
* Python's arbitrary-precision integer comparison
  `last_voice_frame < len(recording_frames) - self._timeout`
  is carried out in `ℤ`.
* Python's `round` on the exact quotients used by `__init__` is
  modelled by round-half-to-even on `ℚ` (`pyRound`); the generator
  loop of `get_audio` runs over a finite stream, returning `none`
  when the stream is exhausted without a validated utterance.
-/

namespace Naomi

/-- Python's builtin `round`: round half to even, on exact rationals. -/
def pyRound (q : ℚ) : ℤ :=
  let f : ℤ := ⌊q⌋
  let r : ℚ := q - f
  if r < 1/2 then f
  else if 1/2 < r then f + 1
  else if f % 2 = 0 then f else f + 1

/-- Configuration state computed by `VADPlugin.__init__`:
`_timeout` and `_minimum_capture` in frames, `_chunktime` in seconds. -/
structure VADPlugin where
  _timeout : ℤ
  _minimum_capture : ℤ
  _chunktime : ℚ
deriving DecidableEq

/-- `VADPlugin.__init__`: derives the frame-count thresholds from the
device timing (`chunksize` samples per frame, `rate` samples per second)
and the configured `timeout` and `minimum` capture seconds.  The source
performs no validation of any argument. -/
def VADPlugin.init (chunksize rate timeout minimum : ℚ) : VADPlugin :=
  let chunklength : ℚ := chunksize / rate
  ⟨pyRound (timeout / chunklength),
   pyRound ((timeout + minimum) / chunklength),
   chunksize / rate⟩

/-- Bounded-deque push: append `x`, dropping the oldest elements so that
at most `cap` remain (Python `collections.deque(maxlen=cap).append`). -/
def pushBounded (cap : ℕ) (buf : List α) (x : α) : List α :=
  let b := buf ++ [x]
  b.drop (b.length - cap)

/-- Python slice `l[-t:]` for a nonnegative `t`: the whole list when
`t = 0` (because `-0 == 0`), otherwise the last `t` elements. -/
def pyLastSlice (t : ℕ) (l : List α) : List α :=
  if t = 0 then l else l.drop (l.length - t)

/-- The loop state of `get_audio`: the pre-roll deque `frames`
(capacity 30), `last_voice_frame`, the `recording` flag and the
in-progress capture `recording_frames`. -/
structure VADState (α : Type) where
  frames : List α
  last_voice_frame : ℕ
  recording : Bool
  recording_frames : List α
deriving DecidableEq

/-- The frame-count parameters `get_audio` actually branches on
(a nonnegative configuration, as produced by the default settings). -/
structure GAParams where
  timeout : ℕ
  minimum_capture : ℕ
deriving DecidableEq

/-- The state at the top of `get_audio`: empty deque, `last_voice_frame = 0`,
not recording, empty capture. -/
def initState : VADState α := ⟨[], 0, false, []⟩

/-- One iteration of the `for frame in ...record(...)` body of `get_audio`:
either the updated state (`Sum.inl`) or the returned utterance (`Sum.inr`). -/
def step (p : GAParams) (cls : α → Bool → Bool) (st : VADState α) (f : α) :
    VADState α ⊕ List α :=
  let frames1 := pushBounded 30 st.frames f
  let voice := cls f st.recording
  if st.recording = true then
    let rf := st.recording_frames ++ [f]
    let lv := if voice = true then rf.length else st.last_voice_frame
    if (lv : ℤ) < (rf.length : ℤ) - (p.timeout : ℤ) then
      if rf.length < p.minimum_capture then
        Sum.inl ⟨frames1, lv, false, rf⟩
      else
        Sum.inr rf
    else
      Sum.inl ⟨frames1, lv, true, rf⟩
  else
    if voice = true then
      let rf := pyLastSlice p.timeout frames1
      Sum.inl ⟨frames1, rf.length, true, rf⟩
    else
      Sum.inl ⟨frames1, st.last_voice_frame, false, st.recording_frames⟩

/-- Run the `get_audio` loop over a finite stream of frames from a given
state: early-exits with `Sum.inr` on `return recording_frames`, else ends
with `Sum.inl` of the final state when the stream is exhausted. -/
def run (p : GAParams) (cls : α → Bool → Bool) :
    VADState α → List α → VADState α ⊕ List α
  | st, [] => Sum.inl st
  | st, f :: rest =>
    match step p cls st f with
    | Sum.inl st1 => run p cls st1 rest
    | Sum.inr u => Sum.inr u

/-- `get_audio` on a finite stream: `some utterance` if the loop returns,
`none` if the stream is exhausted first (the Python generator ends and
the function falls through, returning `None`). -/
def get_audio (p : GAParams) (cls : α → Bool → Bool) (stream : List α) :
    Option (List α) :=
  match run p cls initState stream with
  | Sum.inl _ => none
  | Sum.inr u => some u

/-- The final state of the loop, when the stream is exhausted without a
returned utterance. -/
def runFinal (p : GAParams) (cls : α → Bool → Bool) (st : VADState α)
    (stream : List α) : Option (VADState α) :=
  match run p cls st stream with
  | Sum.inl st1 => some st1
  | Sum.inr _ => none

/-- The state after one loop iteration, when it does not return. -/
def stepState (p : GAParams) (cls : α → Bool → Bool) (st : VADState α)
    (f : α) : Option (VADState α) :=
  match step p cls st f with
  | Sum.inl st1 => some st1
  | Sum.inr _ => none

/-- Classifier for the concrete spec scenario: 10 silent frames, then 30
voiced frames (stream positions 10 to 39), then continuous silence. -/
def clsScenario (k : ℕ) (_r : Bool) : Bool := decide (10 ≤ k) && decide (k < 40)

/-- Classifier detecting voice only from stream position 40 on. -/
def clsLate40 (k : ℕ) (_r : Bool) : Bool := decide (40 ≤ k)

/-- Classifier detecting voice only from stream position 3 on. -/
def clsLate3 (k : ℕ) (_r : Bool) : Bool := decide (3 ≤ k)

/-- Classifier detecting voice only from stream position 2 on. -/
def clsLate2 (k : ℕ) (_r : Bool) : Bool := decide (2 ≤ k)

/-- Classifier that never detects voice. -/
def clsNever (_k : ℕ) (_r : Bool) : Bool := false

/-- Classifier detecting voice exactly at stream position 1. -/
def clsOnly1 (k : ℕ) (_r : Bool) : Bool := decide (k = 1)

/-- Invariant: after consuming stream positions `0, ..., k-1`, the deque
holds the most recent `min 30 k` positions. -/
def BufInv (k : ℕ) (st : VADState ℕ) : Prop :=
  st.frames = List.range' (k - min 30 k) (min 30 k)

/-- Invariant: while recording, the capture is a contiguous run of
stream positions ending at the current position. -/
def ContigRec (k : ℕ) (st : VADState ℕ) : Prop :=
  st.recording = true →
    ∃ a, a ≤ k ∧ st.recording_frames = List.range' a (k - a)

end Naomi

namespace Naomi

/-- Claim C6 helper fact: `pyRound` of a nonpositive rational is nonpositive. -/
theorem pyRound_nonpos (q : ℚ) (hq : q ≤ 0) : pyRound q ≤ 0 := by
  have hfl : (⌊q⌋ : ℚ) ≤ q := Int.floor_le q
  have hf0 : ⌊q⌋ ≤ 0 := by
    have := Int.floor_le_floor hq (α := ℚ)
    simpa using this
  simp only [pyRound]
  split_ifs with h1 h2 h3
  · exact hf0
  · have hflt : ⌊q⌋ < 0 := by
      by_contra hc
      push_neg at hc
      have h00 : ⌊q⌋ = 0 := le_antisymm hf0 hc
      rw [h00] at h2
      push_cast at h2
      linarith
    omega
  · exact hf0
  · have hflt : ⌊q⌋ < 0 := by
      by_contra hc
      push_neg at hc
      have h00 : ⌊q⌋ = 0 := le_antisymm hf0 hc
      rw [h00] at h1
      push_cast at h1
      linarith
    omega

theorem pyRound_intCast (z : ℤ) : pyRound ((z : ℚ)) = z := by
  simp [pyRound, Int.floor_intCast]

theorem step_idle_voice (p : GAParams) (cls : α → Bool → Bool)
    (st : VADState α) (f : α)
    (hrec : st.recording = false) (hvoice : cls f false = true) :
    step p cls st f =
      Sum.inl ⟨pushBounded 30 st.frames f,
        (pyLastSlice p.timeout (pushBounded 30 st.frames f)).length, true,
        pyLastSlice p.timeout (pushBounded 30 st.frames f)⟩ := by
  simp [step, hrec, hvoice]

theorem step_idle_novoice (p : GAParams) (cls : α → Bool → Bool)
    (st : VADState α) (f : α)
    (hrec : st.recording = false) (hvoice : cls f false = false) :
    step p cls st f =
      Sum.inl ⟨pushBounded 30 st.frames f, st.last_voice_frame, false,
        st.recording_frames⟩ := by
  simp [step, hrec, hvoice]

theorem step_rec_voice (p : GAParams) (cls : α → Bool → Bool)
    (st : VADState α) (f : α)
    (hrec : st.recording = true) (hvoice : cls f true = true) :
    step p cls st f =
      Sum.inl ⟨pushBounded 30 st.frames f, (st.recording_frames ++ [f]).length,
        true, st.recording_frames ++ [f]⟩ := by
  have hc : ¬ (((st.recording_frames ++ [f]).length : ℤ) <
      ((st.recording_frames ++ [f]).length : ℤ) - (p.timeout : ℤ)) := by
    have h0 : (0 : ℤ) ≤ (p.timeout : ℤ) := Int.ofNat_nonneg _
    omega
  simp [step, hrec, hvoice, hc]

theorem step_rec_silent_cont (p : GAParams) (cls : α → Bool → Bool)
    (st : VADState α) (f : α)
    (hrec : st.recording = true) (hvoice : cls f true = false)
    (hc : ¬ ((st.last_voice_frame : ℤ) <
      ((st.recording_frames ++ [f]).length : ℤ) - (p.timeout : ℤ))) :
    step p cls st f =
      Sum.inl ⟨pushBounded 30 st.frames f, st.last_voice_frame, true,
        st.recording_frames ++ [f]⟩ := by
  have hc2 : ¬ ((st.last_voice_frame : ℤ) <
      (st.recording_frames.length : ℤ) + 1 - (p.timeout : ℤ)) := by
    simpa using hc
  simp [step, hrec, hvoice, hc2]

theorem step_rec_silent_end_short (p : GAParams) (cls : α → Bool → Bool)
    (st : VADState α) (f : α)
    (hrec : st.recording = true) (hvoice : cls f true = false)
    (hc : (st.last_voice_frame : ℤ) <
      ((st.recording_frames ++ [f]).length : ℤ) - (p.timeout : ℤ))
    (hmc : (st.recording_frames ++ [f]).length < p.minimum_capture) :
    step p cls st f =
      Sum.inl ⟨pushBounded 30 st.frames f, st.last_voice_frame, false,
        st.recording_frames ++ [f]⟩ := by
  have hc2 : (st.last_voice_frame : ℤ) <
      (st.recording_frames.length : ℤ) + 1 - (p.timeout : ℤ) := by
    simpa using hc
  have hmc2 : st.recording_frames.length + 1 < p.minimum_capture := by
    simpa using hmc
  simp [step, hrec, hvoice, hc2, hmc2]

theorem step_rec_silent_end_long (p : GAParams) (cls : α → Bool → Bool)
    (st : VADState α) (f : α)
    (hrec : st.recording = true) (hvoice : cls f true = false)
    (hc : (st.last_voice_frame : ℤ) <
      ((st.recording_frames ++ [f]).length : ℤ) - (p.timeout : ℤ))
    (hmc : ¬ ((st.recording_frames ++ [f]).length < p.minimum_capture)) :
    step p cls st f = Sum.inr (st.recording_frames ++ [f]) := by
  have hc2 : (st.last_voice_frame : ℤ) <
      (st.recording_frames.length : ℤ) + 1 - (p.timeout : ℤ) := by
    simpa using hc
  have hmc2 : ¬ (st.recording_frames.length + 1 < p.minimum_capture) := by
    simpa using hmc
  simp [step, hrec, hvoice, hc2, hmc2]

theorem pushBounded_length (cap : ℕ) (buf : List α) (x : α) :
    (pushBounded cap buf x).length = min cap (buf.length + 1) := by
  simp [pushBounded]
  omega

theorem step_inl_frames (p : GAParams) (cls : α → Bool → Bool)
    (st st1 : VADState α) (f : α)
    (h : step p cls st f = Sum.inl st1) :
    st1.frames = pushBounded 30 st.frames f := by
  simp only [step] at h
  repeat' split at h
  all_goals first
    | (cases Sum.inl.inj h; rfl)
    | cases h

theorem run_frames_length (p : GAParams) (cls : α → Bool → Bool) :
    ∀ (stream : List α) (st st1 : VADState α) (n : ℕ),
      st.frames.length = min 30 n →
      run p cls st stream = Sum.inl st1 →
      st1.frames.length = min 30 (n + stream.length) := by
  intro stream
  induction stream with
  | nil =>
    intro st st1 n hlen hrun
    cases Sum.inl.inj hrun
    simpa using hlen
  | cons f rest ih =>
    intro st st1 n hlen hrun
    simp only [run] at hrun
    cases h : step p cls st f with
    | inl st2 =>
      rw [h] at hrun
      have h2 : st2.frames.length = min 30 (n + 1) := by
        rw [step_inl_frames p cls st st2 f h, pushBounded_length, hlen]
        omega
      have h3 := ih st2 st1 (n + 1) h2 hrun
      rw [h3, List.length_cons]
      omega
    | inr u =>
      rw [h] at hrun
      simp at hrun

theorem run_append (p : GAParams) (cls : α → Bool → Bool) (l1 l2 : List α) :
    ∀ st, run p cls st (l1 ++ l2) =
      match run p cls st l1 with
      | Sum.inl st1 => run p cls st1 l2
      | Sum.inr u => Sum.inr u := by
  induction l1 with
  | nil => intro st; rfl
  | cons f rest ih =>
    intro st
    rw [List.cons_append]
    simp only [run]
    cases h : step p cls st f with
    | inl st1 => exact ih st1
    | inr u => rfl

/-- Claim C5: for every stream on which the classifier never returns a
true voice-detected decision, `get_audio` never returns an utterance:
it terminates only by stream exhaustion, yielding no result. -/
theorem C5_no_voice_no_utterance (p : GAParams) (cls : α → Bool → Bool)
    (stream : List α) (hcls : ∀ g b, cls g b = false) :
    get_audio p cls stream = none := by
  have hkey : ∀ (l : List α) (st : VADState α), st.recording = false →
      ∃ st1, run p cls st l = Sum.inl st1 ∧ st1.recording = false := by
    intro l
    induction l with
    | nil => intro st h; exact ⟨st, rfl, h⟩
    | cons f rest ih =>
      intro st h
      have hstep := step_idle_novoice p cls st f h (hcls f false)
      simp only [run, hstep]
      exact ih _ rfl
  obtain ⟨st1, hrun, _⟩ := hkey stream initState rfl
  simp [get_audio, hrun]

theorem C5_witness :
    get_audio ⟨50, 75⟩ clsNever (List.range 5) = none :=
  C5_no_voice_no_utterance ⟨50, 75⟩ clsNever (List.range 5) (fun _ _ => rfl)

/-- Claim C8: if the frame stream is exhausted while the state machine is
still in the Recording state, `get_audio` returns no utterance: partial
captures are never emitted on stream exhaustion. -/
theorem C8_exhaustion_no_partial (p : GAParams) (cls : α → Bool → Bool)
    (stream : List α) (st : VADState α)
    (hrun : run p cls initState stream = Sum.inl st)
    (hrec : st.recording = true) :
    get_audio p cls stream = none := by
  simp [get_audio, hrun]

theorem C8_witness :
    get_audio ⟨50, 75⟩ clsLate2 (List.range 5) = none :=
  C8_exhaustion_no_partial ⟨50, 75⟩ clsLate2 (List.range 5)
    ⟨[0, 1, 2, 3, 4], 5, true, [0, 1, 2, 3, 4]⟩ (by decide) rfl

/-- Claim C1 counterexample: in the concrete scenario (10 silent frames,
30 voiced frames, then continuous silence, with Timeout = 50 and
MinimumCapture = 75) the returned utterance has 91 frames, not 90:
the pre-roll slice also contains the onset frame itself, and the capture
keeps the (Timeout + 1)-th trailing silent frame that triggers
end-of-speech. -/
theorem C1_cex :
    (get_audio ⟨50, 75⟩ clsScenario (List.range 100)).map List.length =
        some 91 ∧
      ¬ (get_audio ⟨50, 75⟩ clsScenario (List.range 100)).map List.length =
        some 90 :=
  ⟨by decide, by decide⟩

/-- Claim C1 (amended): in the concrete scenario (10 silent frames at
positions 0-9, 30 voiced frames at positions 10-39, then continuous
silence, Timeout = 50, MinimumCapture = 75) `get_audio` returns the
utterance consisting of stream positions 0 through 90 - exactly 91
frames: the pre-roll (positions 0-10, including the onset frame), the
remaining voiced frames, and Timeout + 1 = 51 trailing silent frames
(positions 40-90). -/
theorem C1_scenario_utterance :
    get_audio ⟨50, 75⟩ clsScenario (List.range 100) = some (List.range 91) := by
  decide

set_option maxRecDepth 4000 in
/-- Claim C2 counterexample: with Timeout = 50 and voice first detected
at stream position 40 (41 frames seen at onset), the capture is seeded
with only 30 pre-roll frames - the deque capacity is hard-coded to 30,
not Timeout - whereas the claim predicts min (50, 41) = 41. -/
theorem C2_cex :
    (runFinal ⟨50, 75⟩ clsLate40 initState (List.range 41)).map
        (fun st => st.recording_frames.length) = some 30 ∧
      (30 : ℕ) ≠ min 50 41 :=
  ⟨by decide, by decide⟩

/-- Claim C6: at construction the frame-count thresholds are derived as
`_timeout = round(timeout / chunk_duration)` and
`_minimum_capture = round((timeout + minimum_capture) / chunk_duration)`
with `chunk_duration = chunk_size / sample_rate`; in particular
`chunk_size = 320`, `sample_rate = 16000`, `timeout = 1.0` and
`minimum_capture = 0.5` yield 50 and 75 frames.  (The arithmetic of
`__init__` is modelled on exact rationals; at these inputs the binary
floating-point evaluation yields the same integers.) -/
theorem C6_thresholds :
    (∀ cs r t m : ℚ,
        (VADPlugin.init cs r t m)._timeout = pyRound (t / (cs / r)) ∧
          (VADPlugin.init cs r t m)._minimum_capture =
            pyRound ((t + m) / (cs / r))) ∧
      (VADPlugin.init 320 16000 1 (1/2))._timeout = 50 ∧
      (VADPlugin.init 320 16000 1 (1/2))._minimum_capture = 75 := by
  refine ⟨fun _ _ _ _ => ⟨rfl, rfl⟩, ?_, ?_⟩
  · show pyRound ((1 : ℚ) / (320 / 16000)) = 50
    rw [show ((1 : ℚ) / (320 / 16000)) = ((50 : ℤ) : ℚ) by norm_num]
    rw [pyRound_intCast]
  · show pyRound (((1 : ℚ) + 1/2) / (320 / 16000)) = 75
    rw [show (((1 : ℚ) + 1/2) / (320 / 16000)) = ((75 : ℤ) : ℚ) by norm_num]
    rw [pyRound_intCast]

/-- Claim C7 counterexample: `__init__` performs no validation, so
`timeout = 0` is not rejected - construction succeeds and produces the
degenerate configuration `_timeout = 0` (and `timeout = -1` produces
`_timeout = -50`) instead of raising a configuration error. -/
theorem C7_cex :
    VADPlugin.init 320 16000 0 (1/2) = ⟨0, 25, 1/50⟩ ∧
      (VADPlugin.init 320 16000 (-1) (1/2))._timeout = -50 := by
  constructor
  · rw [show VADPlugin.init 320 16000 0 (1/2) =
        ⟨pyRound ((0 : ℚ) / (320 / 16000)),
         pyRound (((0 : ℚ) + 1/2) / (320 / 16000)), 320 / 16000⟩ from rfl]
    rw [show ((0 : ℚ) / (320 / 16000)) = ((0 : ℤ) : ℚ) by norm_num]
    rw [show (((0 : ℚ) + 1/2) / (320 / 16000)) = ((25 : ℤ) : ℚ) by norm_num]
    rw [pyRound_intCast, pyRound_intCast]
    norm_num [VADPlugin.mk.injEq]
  · show pyRound ((-1 : ℚ) / (320 / 16000)) = -50
    rw [show ((-1 : ℚ) / (320 / 16000)) = ((-50 : ℤ) : ℚ) by norm_num]
    rw [pyRound_intCast]

/-- Claim C7 (amended): construction does not validate its inputs:
any `timeout ≤ 0` is accepted and yields a zero-or-negative
frame-count `_timeout` (degenerate runtime behavior, compare claim C10)
rather than being rejected with a configuration error. -/
theorem C7_no_validation (t m : ℚ) (ht : t ≤ 0) :
    (VADPlugin.init 320 16000 t m)._timeout ≤ 0 := by
  have he : (VADPlugin.init 320 16000 t m)._timeout =
      pyRound (t / (320 / 16000 : ℚ)) := rfl
  rw [he]
  apply pyRound_nonpos
  have hq : t / (320 / 16000 : ℚ) = 50 * t := by
    field_simp
    ring
  rw [hq]
  linarith

theorem C7_witness : (VADPlugin.init 320 16000 (-2) (1/2))._timeout ≤ 0 :=
  C7_no_validation (-2) (1/2) (by norm_num)

/-- Claim C2 (amended): the pre-roll deque is a bounded FIFO of
hard-coded capacity 30 (not `Timeout`), and the pre-roll slice takes the
last `Timeout` of its elements, so for every stream and every capture
onset (with a positive frame-count timeout) the number of pre-roll
frames seeded into the recording equals
`min (Timeout, min (30, frames seen so far including the onset frame))`. -/
theorem C2_preroll_capacity30 (p : GAParams) (cls : α → Bool → Bool)
    (stream : List α) (st : VADState α) (f : α)
    (ht : 1 ≤ p.timeout)
    (hrun : run p cls initState stream = Sum.inl st)
    (hrec : st.recording = false)
    (hvoice : cls f false = true) :
    (stepState p cls st f).map
        (fun s => (s.recording, s.recording_frames.length)) =
      some (true, min p.timeout (min 30 (stream.length + 1))) := by
  have h0 : (initState (α := α)).frames.length = min 30 0 := by
    simp [initState]
  have hbuf : st.frames.length = min 30 stream.length := by
    simpa using run_frames_length p cls stream initState st 0 h0 hrun
  have hstep := step_idle_voice p cls st f hrec hvoice
  have hlen1 : (pushBounded 30 st.frames f).length = min 30 (stream.length + 1) := by
    rw [pushBounded_length, hbuf]
    omega
  have hslice : (pyLastSlice p.timeout (pushBounded 30 st.frames f)).length =
      min p.timeout (min 30 (stream.length + 1)) := by
    rw [pyLastSlice, if_neg (by omega)]
    simp [hlen1]
    omega
  simp [stepState, hstep, hslice]

theorem C2_witness :
    (stepState ⟨50, 75⟩ clsLate3 ⟨[0, 1, 2], 0, false, []⟩ 3).map
        (fun s => (s.recording, s.recording_frames.length)) =
      some (true, min 50 (min 30 ((List.range 3).length + 1))) :=
  C2_preroll_capacity30 ⟨50, 75⟩ clsLate3 (List.range 3)
    ⟨[0, 1, 2], 0, false, []⟩ 3 (by decide) (by decide) rfl rfl

/-- Claim C4: when end-of-speech is detected while recording, a capture
whose frame count is strictly below `MinimumCapture` is dropped - the
loop continues in the non-recording state and nothing is returned -
while a capture of at least `MinimumCapture` frames (equality included)
is returned as the utterance. -/
theorem C4_minimum_capture (p : GAParams) (cls : α → Bool → Bool)
    (st : VADState α) (f : α)
    (hrec : st.recording = true) (hcls : cls f true = false)
    (hend : (st.last_voice_frame : ℤ) <
      ((st.recording_frames ++ [f]).length : ℤ) - (p.timeout : ℤ)) :
    (st.recording_frames.length + 1 < p.minimum_capture →
      step p cls st f = Sum.inl
        ⟨pushBounded 30 st.frames f, st.last_voice_frame, false,
          st.recording_frames ++ [f]⟩) ∧
    (p.minimum_capture ≤ st.recording_frames.length + 1 →
      step p cls st f = Sum.inr (st.recording_frames ++ [f])) := by
  constructor
  · intro hshort
    exact step_rec_silent_end_short p cls st f hrec hcls hend (by simpa using hshort)
  · intro hlong
    exact step_rec_silent_end_long p cls st f hrec hcls hend (by simp; omega)

theorem C4_witness :
    step ⟨2, 3⟩ clsNever ⟨[], 0, true, [5, 5, 5]⟩ 9 = Sum.inr [5, 5, 5, 9] :=
  (C4_minimum_capture ⟨2, 3⟩ clsNever ⟨[], 0, true, [5, 5, 5]⟩ 9 rfl rfl
    (by decide)).2 (by decide)

/-- Claim C10: if the derived frame-count timeout equals 0, the Python
pre-roll slice `list(frames)[-self._timeout:]` evaluates as `[-0:]`,
i.e. `[0:]`, and the recording is seeded at onset with the entire
ring-buffer contents - `min (30, frames seen so far including the onset
frame)` frames, up to the full 30-frame capacity - not with zero
pre-roll frames. -/
theorem C10_zero_timeout_full_buffer (p : GAParams) (cls : α → Bool → Bool)
    (stream : List α) (st : VADState α) (f : α)
    (ht : p.timeout = 0)
    (hrun : run p cls initState stream = Sum.inl st)
    (hrec : st.recording = false)
    (hvoice : cls f false = true) :
    (stepState p cls st f).map
        (fun s => (s.recording_frames, s.recording_frames.length)) =
      some (pushBounded 30 st.frames f, min 30 (stream.length + 1)) := by
  have h0 : (initState (α := α)).frames.length = min 30 0 := by
    simp [initState]
  have hbuf : st.frames.length = min 30 stream.length := by
    simpa using run_frames_length p cls stream initState st 0 h0 hrun
  have hstep := step_idle_voice p cls st f hrec hvoice
  have hslice : pyLastSlice p.timeout (pushBounded 30 st.frames f) =
      pushBounded 30 st.frames f := by
    rw [ht, pyLastSlice, if_pos rfl]
  have hlen1 : (pushBounded 30 st.frames f).length = min 30 (stream.length + 1) := by
    rw [pushBounded_length, hbuf]
    omega
  simp [stepState, hstep, hslice, hlen1]

theorem C10_witness :
    (stepState ⟨0, 3⟩ clsLate2 ⟨[0, 1], 0, false, []⟩ 2).map
        (fun s => (s.recording_frames, s.recording_frames.length)) =
      some (pushBounded 30 [0, 1] 2, min 30 ((List.range 2).length + 1)) :=
  C10_zero_timeout_full_buffer ⟨0, 3⟩ clsLate2 (List.range 2)
    ⟨[0, 1], 0, false, []⟩ 2 rfl (by decide) rfl rfl

theorem run_silent_aux (p : GAParams) (cls : α → Bool → Bool) (f : α)
    (hcls : cls f true = false) :
    ∀ (k : ℕ) (st : VADState α), st.recording = true →
      st.recording_frames.length + k ≤ st.last_voice_frame + p.timeout →
      ∃ st1, run p cls st (List.replicate k f) = Sum.inl st1 ∧
        st1.recording = true ∧
        st1.last_voice_frame = st.last_voice_frame ∧
        st1.recording_frames.length = st.recording_frames.length + k := by
  intro k
  induction k with
  | zero =>
    intro st h1 _
    exact ⟨st, rfl, h1, rfl, rfl⟩
  | succ n ih =>
    intro st h1 h2
    have hcont : ¬ ((st.last_voice_frame : ℤ) <
        ((st.recording_frames ++ [f]).length : ℤ) - (p.timeout : ℤ)) := by
      simp only [List.length_append, List.length_cons, List.length_nil]
      push_cast
      omega
    have hstep := step_rec_silent_cont p cls st f h1 hcls hcont
    rw [List.replicate_succ]
    simp only [run, hstep]
    obtain ⟨st1, hrun, hb1, hb2, hb3⟩ :=
      ih ⟨pushBounded 30 st.frames f, st.last_voice_frame, true,
        st.recording_frames ++ [f]⟩ rfl (by simp; omega)
    refine ⟨st1, hrun, hb1, by simpa using hb2, ?_⟩
    rw [hb3]
    simp
    omega

/-- Claim C3: while recording, the end-of-speech comparison is strict:
from any recording state whose last frame was voiced, processing exactly
`Timeout` consecutive silent frames leaves the machine in the Recording
state, and the `(Timeout + 1)`-th consecutive silent frame ends the
capture (by discarding it or by returning it). -/
theorem C3_strict_timeout (p : GAParams) (cls : α → Bool → Bool)
    (st : VADState α) (f : α)
    (hrec : st.recording = true)
    (hlv : st.last_voice_frame = st.recording_frames.length)
    (hcls : cls f true = false) :
    (∀ k, k ≤ p.timeout →
      (runFinal p cls st (List.replicate k f)).map (fun s => s.recording) =
        some true) ∧
      (runFinal p cls st (List.replicate (p.timeout + 1) f)).map
          (fun s => s.recording) ≠ some true := by
  constructor
  · intro k hk
    obtain ⟨st1, hrun, hb1, _, _⟩ :=
      run_silent_aux p cls f hcls k st hrec (by omega)
    simp [runFinal, hrun, hb1]
  · obtain ⟨st1, hrun, hb1, hb2, hb3⟩ :=
      run_silent_aux p cls f hcls p.timeout st hrec (by omega)
    have hrep : List.replicate (p.timeout + 1) f =
        List.replicate p.timeout f ++ [f] := List.replicate_succ' _ _
    rw [hrep]
    have hend : (st1.last_voice_frame : ℤ) <
        ((st1.recording_frames ++ [f]).length : ℤ) - (p.timeout : ℤ) := by
      simp only [List.length_append, List.length_cons, List.length_nil]
      push_cast
      omega
    have hra := run_append p cls (List.replicate p.timeout f) [f] st
    rw [hrun] at hra
    by_cases hmc : (st1.recording_frames ++ [f]).length < p.minimum_capture
    · have hstep := step_rec_silent_end_short p cls st1 f hb1 hcls hend hmc
      simp [runFinal, hra, run, hstep]
    · have hstep := step_rec_silent_end_long p cls st1 f hb1 hcls hend hmc
      simp [runFinal, hra, run, hstep]

theorem C3_witness :
    (runFinal ⟨2, 100⟩ clsNever ⟨[], 3, true, [7, 7, 7]⟩
        (List.replicate 2 9)).map (fun s => s.recording) = some true ∧
      (runFinal ⟨2, 100⟩ clsNever ⟨[], 3, true, [7, 7, 7]⟩
          (List.replicate (2 + 1) 9)).map (fun s => s.recording) ≠ some true :=
  ⟨(C3_strict_timeout ⟨2, 100⟩ clsNever ⟨[], 3, true, [7, 7, 7]⟩ 9 rfl rfl
      rfl).1 2 (by decide),
   (C3_strict_timeout ⟨2, 100⟩ clsNever ⟨[], 3, true, [7, 7, 7]⟩ 9 rfl rfl
      rfl).2⟩

theorem range'_drop : ∀ (j s n : ℕ),
    (List.range' s n).drop j = List.range' (s + j) (n - j)
  | 0, _, _ => by simp
  | _ + 1, _, 0 => by simp
  | j + 1, s, n + 1 => by
    rw [List.range'_succ, List.drop_succ_cons, range'_drop j (s + 1) n]
    congr 1 <;> omega

theorem pushBounded_range' (k : ℕ) :
    pushBounded 30 (List.range' (k - min 30 k) (min 30 k)) k =
      List.range' (k + 1 - min 30 (k + 1)) (min 30 (k + 1)) := by
  have hm : min 30 k ≤ k := Nat.min_le_right 30 k
  have h1 : List.range' (k - min 30 k) (min 30 k) ++ [k] =
      List.range' (k - min 30 k) (min 30 k + 1) := by
    rw [List.range'_1_concat]
    congr 2
    omega
  simp only [pushBounded, h1, List.length_range', range'_drop]
  congr 1 <;> omega

theorem step_inv (p : GAParams) (cls : ℕ → Bool → Bool) (k : ℕ)
    (st : VADState ℕ) (hb : BufInv k st) (hr : ContigRec k st) :
    (∀ st1, step p cls st k = Sum.inl st1 →
      BufInv (k + 1) st1 ∧ ContigRec (k + 1) st1) ∧
    (∀ u, step p cls st k = Sum.inr u →
      ∃ a, a + u.length ≤ k + 1 ∧ u = List.range' a u.length) := by
  have hbuf1 : pushBounded 30 st.frames k =
      List.range' (k + 1 - min 30 (k + 1)) (min 30 (k + 1)) := by
    rw [hb, pushBounded_range']
  cases hrec : st.recording with
  | false =>
    cases hv : cls k false with
    | false =>
      have hstep := step_idle_novoice p cls st k hrec hv
      constructor
      · intro st1 h
        rw [hstep] at h
        cases Sum.inl.inj h
        constructor
        · exact hbuf1
        · intro hcon
          cases hcon
      · intro u h
        rw [hstep] at h
        cases h
    | true =>
      have hstep := step_idle_voice p cls st k hrec hv
      have hrf : ∃ a, a ≤ k + 1 ∧ pyLastSlice p.timeout (pushBounded 30 st.frames k) =
          List.range' a (k + 1 - a) := by
        rw [hbuf1]
        by_cases ht : p.timeout = 0
        · refine ⟨k + 1 - min 30 (k + 1), by omega, ?_⟩
          rw [pyLastSlice, if_pos ht]
          congr 1
          omega
        · rw [pyLastSlice, if_neg ht, List.length_range', range'_drop]
          refine ⟨k + 1 - min 30 (k + 1) + (min 30 (k + 1) - p.timeout), by omega, ?_⟩
          congr 1
          omega
      obtain ⟨a, ha, hrfeq⟩ := hrf
      constructor
      · intro st1 h
        rw [hstep] at h
        cases Sum.inl.inj h
        constructor
        · exact hbuf1
        · intro _
          exact ⟨a, ha, hrfeq⟩
      · intro u h
        rw [hstep] at h
        cases h
  | true =>
    obtain ⟨a, ha, hrfs⟩ := hr hrec
    have happ : st.recording_frames ++ [k] = List.range' a (k + 1 - a) := by
      rw [hrfs]
      have := List.range'_1_concat a (k - a)
      rw [show k - a + 1 = k + 1 - a by omega] at this
      rw [this]
      congr 2
      omega
    cases hv : cls k true with
    | true =>
      have hstep := step_rec_voice p cls st k hrec hv
      constructor
      · intro st1 h
        rw [hstep] at h
        cases Sum.inl.inj h
        refine ⟨hbuf1, fun _ => ⟨a, by omega, by simpa using happ⟩⟩
      · intro u h
        rw [hstep] at h
        cases h
    | false =>
      by_cases hc : (st.last_voice_frame : ℤ) <
          ((st.recording_frames ++ [k]).length : ℤ) - (p.timeout : ℤ)
      · by_cases hmc : (st.recording_frames ++ [k]).length < p.minimum_capture
        · have hstep := step_rec_silent_end_short p cls st k hrec hv hc hmc
          constructor
          · intro st1 h
            rw [hstep] at h
            cases Sum.inl.inj h
            constructor
            · exact hbuf1
            · intro hcon
              cases hcon
          · intro u h
            rw [hstep] at h
            cases h
        · have hstep := step_rec_silent_end_long p cls st k hrec hv hc hmc
          constructor
          · intro st1 h
            rw [hstep] at h
            cases h
          · intro u h
            rw [hstep] at h
            cases Sum.inr.inj h
            have hlen : (st.recording_frames ++ [k]).length = k + 1 - a := by
              rw [happ, List.length_range']
            refine ⟨a, by omega, ?_⟩
            rw [hlen, happ]
      · have hstep := step_rec_silent_cont p cls st k hrec hv hc
        constructor
        · intro st1 h
          rw [hstep] at h
          cases Sum.inl.inj h
          refine ⟨hbuf1, fun _ => ⟨a, by omega, by simpa using happ⟩⟩
        · intro u h
          rw [hstep] at h
          cases h

theorem run_inv (p : GAParams) (cls : ℕ → Bool → Bool) :
    ∀ (m k : ℕ) (st : VADState ℕ), BufInv k st → ContigRec k st →
      (∀ st1, run p cls st (List.range' k m) = Sum.inl st1 →
        BufInv (k + m) st1 ∧ ContigRec (k + m) st1) ∧
      (∀ u, run p cls st (List.range' k m) = Sum.inr u →
        ∃ a, a + u.length ≤ k + m ∧ u = List.range' a u.length) := by
  intro m
  induction m with
  | zero =>
    intro k st hb hr
    constructor
    · intro st1 h
      cases Sum.inl.inj h
      exact ⟨hb, hr⟩
    · intro u h
      cases h
  | succ n ih =>
    intro k st hb hr
    rw [List.range'_succ]
    cases hstep : step p cls st k with
    | inl st2 =>
      obtain ⟨hb2, hr2⟩ := (step_inv p cls k st hb hr).1 st2 hstep
      have hrec := ih (k + 1) st2 hb2 hr2
      constructor
      · intro st1 h
        simp only [run, hstep] at h
        obtain ⟨hx, hy⟩ := hrec.1 st1 h
        rw [show k + 1 + n = k + (n + 1) by omega] at hx hy
        exact ⟨hx, hy⟩
      · intro u h
        simp only [run, hstep] at h
        obtain ⟨a, h1, h2⟩ := hrec.2 u h
        exact ⟨a, by omega, h2⟩
    | inr u0 =>
      constructor
      · intro st1 h
        simp only [run, hstep] at h
        cases h
      · intro u h
        simp only [run, hstep] at h
        cases Sum.inr.inj h
        obtain ⟨a, h1, h2⟩ := (step_inv p cls k st hb hr).2 u0 hstep
        exact ⟨a, by omega, h2⟩

/-- Claim C9: every utterance returned by `get_audio` is a contiguous,
order-preserving run of consecutive stream positions: it equals
`List.range' a len` for `a` its own first element, entirely within the
input stream - no position duplicated, none skipped, from the pre-roll
snapshot at onset through the frame that ends the capture. -/
theorem C9_contiguous (p : GAParams) (cls : ℕ → Bool → Bool) (n : ℕ)
    (u : List ℕ) (h : get_audio p cls (List.range n) = some u) :
    u = List.range' (u.headD 0) u.length ∧ u.headD 0 + u.length ≤ n := by
  have hrun : run p cls initState (List.range n) = Sum.inr u := by
    unfold get_audio at h
    cases hr : run p cls initState (List.range n) with
    | inl st => rw [hr] at h; cases h
    | inr v =>
      rw [hr] at h
      cases Option.some.inj h
      rfl
  rw [List.range_eq_range'] at hrun
  have hinitb : BufInv 0 (initState (α := ℕ)) := by
    simp [BufInv, initState]
  have hinitr : ContigRec 0 (initState (α := ℕ)) := by
    intro hcon
    cases hcon
  obtain ⟨a, h1, h2⟩ :=
    (run_inv p cls n 0 initState hinitb hinitr).2 u hrun
  rcases u with _ | ⟨x, xs⟩
  · exact ⟨rfl, by simp⟩
  · have hlen : (x :: xs).length = xs.length + 1 := rfl
    rw [hlen, List.range'_succ] at h2
    have hax : x = a := (List.cons.inj h2).1
    subst hax
    have hhead : (x :: xs).headD 0 = x := rfl
    rw [hhead]
    constructor
    · rw [hlen, List.range'_succ]
      exact h2
    · rw [hlen]
      omega

theorem C9_witness :
    ([0, 1, 2, 3, 4] : List ℕ) =
        List.range' (([0, 1, 2, 3, 4] : List ℕ).headD 0)
          ([0, 1, 2, 3, 4] : List ℕ).length ∧
      ([0, 1, 2, 3, 4] : List ℕ).headD 0 +
          ([0, 1, 2, 3, 4] : List ℕ).length ≤ 10 :=
  C9_contiguous ⟨2, 3⟩ clsOnly1 10 [0, 1, 2, 3, 4] (by decide)

end Naomi
